import Mathlib

/-!
Shallow embedding of `src/examples/hello/src/sum.cc` (the `hello` example task
of legate.core): the task body `hello::SumTask::cpu_variant`, the loop it runs
over its input slice, the assertion checks on its reduction output store, and
the load-time registration hook `register_tasks`.

The element type of the stores is kept as a parameter `F` together with the
addition `add` and the identity `zero` used by `Legion::SumReduction<float>`:
every structural statement below holds for an arbitrary binary operation, so
in particular for IEEE float addition.  Concrete instances use `ℚ`, on which
the additions appearing in the spec's example (small integers) are exact,
matching binary64 arithmetic on those inputs.

Machine integers follow the C++ source: the loop variable `i` is a `size_t`
(64-bit unsigned), the `Rect<1>` bounds `lo`, `hi` are signed `coord_t`
(64-bit).  The comparison `i <= input_shape.hi` is therefore an unsigned
comparison after the usual arithmetic conversions, and the accessor index
`in[i]` converts `i` back to a signed coordinate.
-/

namespace Hello

/-- 2^64, the modulus of `size_t` and of the 64-bit `coord_t`. -/
def wordMod : Nat := 2 ^ 64

/-- 2^63: signed 64-bit values are in `[-2^63, 2^63)`. -/
def halfMod : Nat := 2 ^ 63

/-- C++ conversion of a signed 64-bit coordinate to `size_t` (reduction
modulo 2^64, so `-1` becomes `2^64 - 1`). -/
def toSizeT (x : Int) : Nat := (x % (wordMod : Int)).toNat

/-- C++ conversion of a `size_t` value back to the signed 64-bit `coord_t`
used by the accessor subscript (two's-complement reinterpretation). -/
def toCoord (i : Nat) : Int :=
  if i % wordMod < halfMod then ((i % wordMod : Nat) : Int)
  else ((i % wordMod : Nat) : Int) - (wordMod : Int)

/-- Legate's element-type codes (`legate_core_type_code_t`); the assertion in
`cpu_variant` checks for `FLOAT_LT`. -/
inductive TypeCode
  | BOOL_LT
  | INT8_LT
  | INT16_LT
  | INT32_LT
  | INT64_LT
  | UINT8_LT
  | UINT16_LT
  | UINT32_LT
  | UINT64_LT
  | HALF_LT
  | FLOAT_LT
  | DOUBLE_LT
deriving DecidableEq

/-- `legate::Rect<1>`: an inclusive 1-D index range `[lo, hi]`. -/
structure Rect1 where
  lo : Int
  hi : Int
deriving DecidableEq

/-- An input store as `cpu_variant` sees it: its 1-D shape and its read
accessor (a total function in the model; the code only ever evaluates it at
the indices its loop produces). -/
structure InputStore (F : Type) where
  shape : Rect1
  data : Int → F

/-- A reduction-output store as `cpu_variant` sees it: the metadata the three
assertions inspect, plus the runtime-initialized accumulator contents (which
the task never reads). -/
structure OutputStore (F : Type) where
  code : TypeCode
  dim : Nat
  shape : Rect1
  accInit : F

/-- `legate::TaskContext`: indexed input stores and reduction stores. -/
structure TaskContext (F : Type) where
  inputs : List (InputStore F)
  reductions : List (OutputStore F)

/-- Runtime-visible events of one task invocation, in program order: the log
line, each accessor read `in[i]`, and the single `sum.reduce(0, total)`. -/
inductive Effect (F : Type)
  | log (lo hi : Int)
  | readInput (store : Nat) (idx : Int)
  | reduceAt (store : Nat) (idx : Int) (v : F)
deriving DecidableEq

/-- State of the summation loop
`for (size_t i = input_shape.lo; i <= input_shape.hi; ++i) total += in[i];`:
the `size_t` loop variable, the running `total`, the coordinates read so far,
and whether the loop has exited. -/
structure LoopState (F : Type) where
  i : Nat
  acc : F
  reads : List Int
  done : Bool
deriving DecidableEq

/-- One iteration of the loop: test `i <= hi` (as `size_t`), and if it holds
read `in[i]` (index converted back to a signed coordinate), add it to the
total and increment `i` modulo 2^64; otherwise exit. -/
def loopStep {F : Type} (add : F → F → F) (f : Int → F) (hiU : Nat)
    (s : LoopState F) : LoopState F :=
  if s.done then s
  else if s.i ≤ hiU then
    { i := (s.i + 1) % wordMod
      acc := add s.acc (f (toCoord s.i))
      reads := s.reads ++ [toCoord s.i]
      done := false }
  else { s with done := true }

/-- Running the loop for `n` iterations (fuel-indexed small-step execution). -/
def loopRun {F : Type} (add : F → F → F) (f : Int → F) (hiU : Nat)
    (s : LoopState F) (n : Nat) : LoopState F :=
  (loopStep add f hiU)^[n] s

/-- Fuel that suffices for the loop to exit whenever it terminates at all. -/
def loopFuel (lo hi : Int) : Nat := (toSizeT hi + 1 - toSizeT lo) + 1

/-- The tail of `cpu_variant` after the loop: the three `assert`s on the
reduction store, in source order, then `sum.reduce(0, total)`.  A failed
assertion aborts the invocation, recorded as `aborted k` with the effects
performed up to that point and, in particular, no reduce effect. -/
inductive VariantResult (F : Type)
  | ok (total : F) (effects : List (Effect F))
  | aborted (failedAssert : Nat) (effects : List (Effect F))
deriving DecidableEq

/-- `assert(output.code() == FLOAT_LT); assert(output.dim() == 1);
assert(output.shape<1>() == legate::Rect<1>(0, 0)); sum.reduce(0, total);` -/
def checkResult {F : Type} (out : OutputStore F) (total : F)
    (effs : List (Effect F)) : VariantResult F :=
  if out.code = TypeCode.FLOAT_LT then
    if out.dim = 1 then
      if out.shape = ⟨0, 0⟩ then
        VariantResult.ok total (effs ++ [Effect.reduceAt 0 0 total])
      else VariantResult.aborted 3 effs
    else VariantResult.aborted 2 effs
  else VariantResult.aborted 1 effs

/-- `hello::SumTask::cpu_variant`: read input store 0 and its shape, log the
bounds, run the summation loop from `total = 0`, then validate and reduce
into reduction store 0.  `none` models an invocation that never reaches the
reduce because the loop has not exited within the given fuel (in particular a
loop that never exits), or a context missing store 0. -/
def cpuVariant {F : Type} (add : F → F → F) (zero : F) (fuel : Nat)
    (ctx : TaskContext F) : Option (VariantResult F) :=
  match ctx.inputs[0]? with
  | none => none
  | some input =>
    let lo := input.shape.lo
    let hi := input.shape.hi
    let fin := loopRun add input.data (toSizeT hi)
      ⟨toSizeT lo, zero, [], false⟩ fuel
    if fin.done then
      match ctx.reductions[0]? with
      | none => none
      | some output =>
        some (checkResult output fin.acc
          (Effect.log lo hi :: fin.reads.map (Effect.readInput 0)))
    else none

/-- The ascending index list `[lo, lo+1, ..., hi]` of an inclusive range. -/
def indexList (lo hi : Int) : List Int :=
  (List.range (hi + 1 - lo).toNat).map (fun k : Nat => lo + (k : Int))

/-- The sequential sum of the slice `[lo, hi]` in ascending index order,
accumulated from `zero`: the spec's "sequential floating-point sum". -/
def seqSum {F : Type} (add : F → F → F) (zero : F) (f : Int → F)
    (lo hi : Int) : F :=
  ((indexList lo hi).map f).foldl add zero

/-- The three asserted preconditions on the reduction store. -/
def validOutput {F : Type} (out : OutputStore F) : Prop :=
  out.code = TypeCode.FLOAT_LT ∧ out.dim = 1 ∧ out.shape = ⟨0, 0⟩

instance {F : Type} (out : OutputStore F) : Decidable (validOutput out) :=
  inferInstanceAs (Decidable (_ ∧ _ ∧ _))

/-- Whether a result is an assertion abort. -/
def VariantResult.isAborted {F : Type} : VariantResult F → Bool
  | .ok _ _ => false
  | .aborted _ _ => true

/-- The effect trace of a result. -/
def VariantResult.effects {F : Type} : VariantResult F → List (Effect F)
  | .ok _ effs => effs
  | .aborted _ effs => effs

/-- The reduce effects are the only effects that modify runtime-visible
state; reads and the log line modify no store. -/
def isReduceEffect {F : Type} : Effect F → Bool
  | .reduceAt _ _ _ => true
  | _ => false

/-- `Legion::SumReduction<float>::apply` folded over a trace: the value of the
accumulator of reduction store 0 at index 0 after the trace, starting from
`init`. -/
def reduceApply {F : Type} (add : F → F → F) (a : F) (e : Effect F) : F :=
  match e with
  | Effect.reduceAt s i v => if s = 0 ∧ i = 0 then add a v else a
  | _ => a

def applyReduceEffects {F : Type} (add : F → F → F) (init : F)
    (effs : List (Effect F)) : F :=
  effs.foldl (reduceApply add) init

/-- The total extracted from a completed, non-aborted invocation. -/
def okTotal {F : Type} : Option (VariantResult F) → Option F
  | some (VariantResult.ok t _) => some t
  | _ => none

/-- Frame of an effect relative to the slice `[lo, hi]`: accessor reads touch
only input store 0 at indices within the slice; the reduce touches only
reduction store 0 at index 0; the log line touches no store. -/
def effectInFrame {F : Type} (lo hi : Int) : Effect F → Prop
  | Effect.log _ _ => True
  | Effect.readInput s i => s = 0 ∧ lo ≤ i ∧ i ≤ hi
  | Effect.reduceAt s i _ => s = 0 ∧ i = 0

/-! Concrete instances over `ℚ`.  The spec's example values (1.0, 2.0, 3.0,
4.0 and their partial sums up to 10.0) are small integers: IEEE binary64
addition is exact on them, so exact rational arithmetic computes the same
values float addition would. -/

/-- The spec's example array `[1.0, 2.0, 3.0, 4.0]` (as the read accessor of
a store over indices 0..3). -/
def helloData : Int → ℚ := fun i =>
  if i = 0 then 1 else if i = 1 then 2 else if i = 2 then 3 else
    if i = 3 then 4 else 0

/-- `helloData` with different contents outside the slice `[0, 1]`. -/
def helloDataAlt : Int → ℚ := fun i => if i = 99 then 42 else helloData i

/-- A reduction store satisfying all three asserted preconditions, with the
runtime-initialized identity 0 in its accumulator. -/
def outOk : OutputStore ℚ := ⟨TypeCode.FLOAT_LT, 1, ⟨0, 0⟩, 0⟩

/-- A reduction store of the wrong element type (fails the first assert). -/
def outBad : OutputStore ℚ := ⟨TypeCode.DOUBLE_LT, 1, ⟨0, 0⟩, 0⟩

/-- Point task A of the spec's example: slice `[0, 1]`. -/
def ctxA : TaskContext ℚ := ⟨[⟨⟨0, 1⟩, helloData⟩], [outOk]⟩

/-- Point task B of the spec's example: slice `[2, 3]`. -/
def ctxB : TaskContext ℚ := ⟨[⟨⟨2, 3⟩, helloData⟩], [outOk]⟩

/-- Task A's context with input contents changed outside its slice. -/
def ctxA2 : TaskContext ℚ := ⟨[⟨⟨0, 1⟩, helloDataAlt⟩], [outOk]⟩

/-- Task A's context with a different initial accumulator value. -/
def ctxA3 : TaskContext ℚ := ⟨[⟨⟨0, 1⟩, helloData⟩], [{ outOk with accInit := 5 }]⟩

/-- Task A's context with an extra input store and an extra reduction store
appended after the ones the task uses. -/
def ctxAextra : TaskContext ℚ :=
  ⟨[⟨⟨0, 1⟩, helloData⟩, ⟨⟨7, 9⟩, helloDataAlt⟩], [outOk, outBad]⟩

/-- A context violating the asserted preconditions (wrong element type). -/
def ctxBad : TaskContext ℚ := ⟨[⟨⟨0, 1⟩, helloData⟩], [outBad]⟩

/-- A context whose input store is empty: Legion's canonical empty `Rect<1>`
has `lo = 0`, `hi = -1`. -/
def ctxEmpty : TaskContext ℚ := ⟨[⟨⟨0, -1⟩, helloData⟩], [outOk]⟩

/-! Partitioned summation (claim C6): contiguous partitions described by the
list of segment lengths. -/

/-- One point task's computed total over segment `[lo, hi]`: the summation
loop of `cpu_variant` run with sufficient fuel (`none` when the loop does
not exit within it). -/
def cpuContribution (f : Int → ℚ) (lo hi : Int) : Option ℚ :=
  let fin := loopRun (fun a b => a + b) f (toSizeT hi)
    ⟨toSizeT lo, 0, [], false⟩ (loopFuel lo hi)
  if fin.done then some fin.acc else none

/-- The per-point-task contributions over the contiguous partition of
`[start, start + lens.sum)` into segments of the given lengths. -/
def segmentContribs (f : Int → ℚ) : Int → List Nat → List (Option ℚ)
  | _, [] => []
  | start, n :: rest =>
    cpuContribution f start (start + (n : Int) - 1) ::
      segmentContribs f (start + (n : Int)) rest

/-- The corresponding exact per-segment sequential sums. -/
def segmentSeqSums (f : Int → ℚ) : Int → List Nat → List ℚ
  | _, [] => []
  | start, n :: rest =>
    seqSum (fun a b => a + b) 0 f start (start + (n : Int) - 1) ::
      segmentSeqSums f (start + (n : Int)) rest

/-! Load-time registration (claim C8).  The constructor hook
`static void __attribute__((constructor)) register_tasks(void)` is in the
source; when it runs is decided by the dynamic loader, which is external to
the repository.  Modelled from the spec: "registration occurs once, at
process/library load time, guarded by a static scoped registration mechanism
(constructor-style hook) that triggers exactly once per load" — the loader
runs a library's constructors exactly when the library goes from unloaded to
loaded, and a load request for an already-loaded library runs none. -/

/-- Events of a process run: loading the hello library, loading some other
library, dispatching a `SumTask` (possible only once its library is
loaded). -/
inductive ProcEvent
  | loadHello
  | loadOther (lib : Nat)
  | dispatchSum
deriving DecidableEq

structure ProcState where
  helloLoaded : Bool
  registrations : Nat
  dispatches : Nat
deriving DecidableEq

/-- `register_tasks`: calls `hello::SumTask::register_variants()`. -/
def register_tasks (s : ProcState) : ProcState :=
  { s with registrations := s.registrations + 1 }

def procStep (s : ProcState) (e : ProcEvent) : ProcState :=
  match e with
  | ProcEvent.loadHello =>
    if s.helloLoaded then s
    else { register_tasks s with helloLoaded := true }
  | ProcEvent.loadOther _ => s
  | ProcEvent.dispatchSum =>
    if s.helloLoaded then { s with dispatches := s.dispatches + 1 } else s

def procInit : ProcState := ⟨false, 0, 0⟩

def runEvents (events : List ProcEvent) : ProcState :=
  events.foldl procStep procInit

theorem halfMod_lt_wordMod : halfMod < wordMod := by
  norm_num [halfMod, wordMod]

theorem toSizeT_of_nonneg {x : Int} (h0 : 0 ≤ x) (h1 : x < (wordMod : Int)) :
    toSizeT x = x.toNat := by
  unfold toSizeT
  rw [Int.emod_eq_of_lt h0 h1]

theorem toCoord_small {i : Nat} (h : i < halfMod) : toCoord i = (i : Int) := by
  have h2 : i % wordMod = i :=
    Nat.mod_eq_of_lt (lt_trans h halfMod_lt_wordMod)
  unfold toCoord
  rw [h2, if_pos h]

theorem indexList_empty {lo hi : Int} (h : hi < lo) : indexList lo hi = [] := by
  unfold indexList
  have hz : (hi + 1 - lo).toNat = 0 := by omega
  rw [hz]
  simp

theorem indexList_cons {lo hi : Int} (h : lo ≤ hi) :
    indexList lo hi = lo :: indexList (lo + 1) hi := by
  unfold indexList
  have h1 : (hi + 1 - lo).toNat = (hi + 1 - (lo + 1)).toNat + 1 := by omega
  rw [h1, List.range_succ_eq_map]
  simp only [List.map_cons, List.map_map, Nat.cast_zero, add_zero]
  congr 1
  apply List.map_congr_left
  intro k _
  simp only [Function.comp]
  push_cast
  ring

theorem mem_indexList {lo hi i : Int} (h : i ∈ indexList lo hi) :
    lo ≤ i ∧ i ≤ hi := by
  unfold indexList at h
  rw [List.mem_map] at h
  obtain ⟨k, hk, rfl⟩ := h
  rw [List.mem_range] at hk
  omega

theorem indexList_append {lo mid hi : Int} (h1 : lo ≤ mid + 1) (h2 : mid ≤ hi) :
    indexList lo mid ++ indexList (mid + 1) hi = indexList lo hi := by
  unfold indexList
  have ha : (hi + 1 - lo).toNat = (mid + 1 - lo).toNat + (hi - mid).toNat := by
    omega
  have hb : (hi + 1 - (mid + 1)).toNat = (hi - mid).toNat := by omega
  rw [ha, hb, List.range_add, List.map_append, List.map_map]
  congr 1
  apply List.map_congr_left
  intro k _
  simp only [Function.comp]
  push_cast
  omega

theorem loopStep_done {F : Type} (add : F → F → F) (f : Int → F) (hiU : Nat)
    (s : LoopState F) (h : s.done = true) : loopStep add f hiU s = s := by
  unfold loopStep
  rw [if_pos h]

theorem loopRun_done {F : Type} (add : F → F → F) (f : Int → F) (hiU : Nat)
    (s : LoopState F) (h : s.done = true) (n : Nat) :
    loopRun add f hiU s n = s := by
  induction n with
  | zero => rfl
  | succ n ih =>
    unfold loopRun at ih ⊢
    rw [Function.iterate_succ_apply, loopStep_done add f hiU s h, ih]

/-- The loop exits as soon as the (unsigned) test `i <= hi` fails. -/
theorem loopStep_exit {F : Type} (add : F → F → F) (f : Int → F) (hiU : Nat)
    (i : Nat) (a : F) (r : List Int) (h : ¬ i ≤ hiU) :
    loopStep add f hiU ⟨i, a, r, false⟩ = ⟨i, a, r, true⟩ := by
  unfold loopStep
  rw [if_neg (by simp), if_neg h]

/-- While the (unsigned) test `i <= hi` holds, the body reads `in[i]`. -/
theorem loopStep_read {F : Type} (add : F → F → F) (f : Int → F) (hiU : Nat)
    (i : Nat) (a : F) (r : List Int) (h : i ≤ hiU) :
    loopStep add f hiU ⟨i, a, r, false⟩ =
      ⟨(i + 1) % wordMod, add a (f (toCoord i)), r ++ [toCoord i], false⟩ := by
  unfold loopStep
  rw [if_neg (by simp), if_pos h]

/-- Running the loop from `size_t` position `i` with `i + cnt = hiU + 1` and
`hiU < 2^63` (no wraparound in range): it reads exactly the coordinates
`i, i+1, ..., hiU` in ascending order, left-folds them into the total, and
exits after `cnt + 1` condition checks. -/
theorem loopRun_char {F : Type} (add : F → F → F) (f : Int → F) (hiU : Nat)
    (hh : hiU < halfMod) :
    ∀ (cnt i : Nat) (a : F) (r : List Int), i + cnt = hiU + 1 →
      loopRun add f hiU ⟨i, a, r, false⟩ (cnt + 1) =
        ⟨hiU + 1, ((indexList (i : Int) (hiU : Int)).map f).foldl add a,
          r ++ indexList (i : Int) (hiU : Int), true⟩ := by
  intro cnt
  induction cnt with
  | zero =>
    intro i a r h
    have hi : i = hiU + 1 := by omega
    subst hi
    have hempty : indexList ((hiU + 1 : Nat) : Int) (hiU : Int) = [] :=
      indexList_empty (by push_cast; omega)
    rw [hempty]
    unfold loopRun
    rw [Function.iterate_one, loopStep_exit add f hiU _ _ _ (by omega)]
    simp
  | succ c ih =>
    intro i a r h
    have hle : i ≤ hiU := by omega
    have hiw : i + 1 < wordMod := by
      have := halfMod_lt_wordMod
      omega
    have hstep : loopStep add f hiU ⟨i, a, r, false⟩ =
        ⟨i + 1, add a (f ((i : Nat) : Int)), r ++ [((i : Nat) : Int)], false⟩ := by
      rw [loopStep_read add f hiU i a r hle, Nat.mod_eq_of_lt hiw,
        toCoord_small (show i < halfMod by omega)]
    have hcons : indexList (i : Int) (hiU : Int) =
        (i : Int) :: indexList ((i : Int) + 1) (hiU : Int) :=
      indexList_cons (by exact_mod_cast hle)
    have hcast : (((i + 1 : Nat)) : Int) = (i : Int) + 1 := by push_cast; ring
    have hrw : loopRun add f hiU ⟨i, a, r, false⟩ (c + 1 + 1) =
        loopRun add f hiU (loopStep add f hiU ⟨i, a, r, false⟩) (c + 1) := by
      unfold loopRun
      rw [Function.iterate_succ_apply]
    rw [hrw, hstep, ih (i + 1) (add a (f ((i : Nat) : Int)))
      (r ++ [((i : Nat) : Int)]) (by omega), hcast, hcons]
    rw [List.append_assoc]
    simp only [List.singleton_append, List.map_cons, List.foldl_cons]

/-- The loop portion of `cpu_variant`, with enough fuel and runtime-valid
bounds (`0 ≤ lo`, `0 ≤ hi`, both below 2^63): it exits, its total is the
ascending-order sequential sum of the slice, and it reads exactly
`indexList lo hi` (empty when `hi < lo`). -/
theorem loopRun_valid {F : Type} (add : F → F → F) (zero : F) (f : Int → F)
    (lo hi : Int) (fuel : Nat)
    (h0 : 0 ≤ lo) (h1 : 0 ≤ hi)
    (h2 : lo < (halfMod : Int)) (h3 : hi < (halfMod : Int))
    (hfuel : loopFuel lo hi ≤ fuel) :
    ∃ j, loopRun add f (toSizeT hi) ⟨toSizeT lo, zero, [], false⟩ fuel =
      ⟨j, seqSum add zero f lo hi, indexList lo hi, true⟩ := by
  have hwlt : ((halfMod : Nat) : Int) < ((wordMod : Nat) : Int) := by
    exact_mod_cast halfMod_lt_wordMod
  have hlosz : toSizeT lo = lo.toNat := toSizeT_of_nonneg h0 (lt_trans h2 hwlt)
  have hhisz : toSizeT hi = hi.toNat := toSizeT_of_nonneg h1 (lt_trans h3 hwlt)
  have hloN : ((lo.toNat : Nat) : Int) = lo := Int.toNat_of_nonneg h0
  have hhiN : ((hi.toNat : Nat) : Int) = hi := Int.toNat_of_nonneg h1
  have hhiH : hi.toNat < halfMod := by omega
  rcases le_or_lt lo hi with hcase | hcase
  · -- non-empty range: the characterized run, then the exit state is fixed
    have hloLe : lo.toNat ≤ hi.toNat := by omega
    have hcnt : lo.toNat + (hi.toNat + 1 - lo.toNat) = hi.toNat + 1 := by omega
    have hchar := loopRun_char add f hi.toNat hhiH (hi.toNat + 1 - lo.toNat)
      lo.toNat zero [] hcnt
    rw [hloN, hhiN] at hchar
    have hfuel2 : (hi.toNat + 1 - lo.toNat) + 1 ≤ fuel := by
      have : loopFuel lo hi = (hi.toNat + 1 - lo.toNat) + 1 := by
        unfold loopFuel
        rw [hlosz, hhisz]
      omega
    refine ⟨hi.toNat + 1, ?_⟩
    have hsplit : fuel = (fuel - ((hi.toNat + 1 - lo.toNat) + 1)) +
        ((hi.toNat + 1 - lo.toNat) + 1) := by omega
    rw [hsplit]
    unfold loopRun
    rw [Function.iterate_add_apply]
    rw [hlosz, hhisz]
    unfold loopRun at hchar
    rw [hchar]
    have := loopRun_done add f hi.toNat
      ⟨hi.toNat + 1, seqSum add zero f lo hi, [] ++ indexList lo hi, true⟩ rfl
      (fuel - ((hi.toNat + 1 - lo.toNat) + 1))
    unfold loopRun at this
    rw [show ([] : List Int) ++ indexList lo hi = indexList lo hi from
      List.nil_append _] at this ⊢
    exact this
  · -- empty range with nonnegative bounds: the first test fails, no reads
    have hgt : toSizeT hi < toSizeT lo := by
      rw [hlosz, hhisz]
      omega
    have hstep : loopStep add f (toSizeT hi)
        (⟨toSizeT lo, zero, [], false⟩ : LoopState F) =
        ⟨toSizeT lo, zero, [], true⟩ :=
      loopStep_exit add f (toSizeT hi) _ _ _ (Nat.not_le.mpr hgt)
    have hfuel1 : 1 ≤ fuel := by
      have : 1 ≤ loopFuel lo hi := by
        unfold loopFuel
        omega
      omega
    refine ⟨toSizeT lo, ?_⟩
    have hsplit : fuel = (fuel - 1) + 1 := by omega
    rw [hsplit]
    unfold loopRun
    rw [Function.iterate_add_apply, Function.iterate_one, hstep]
    have hdone := loopRun_done add f (toSizeT hi)
      (⟨toSizeT lo, zero, [], true⟩ : LoopState F) rfl (fuel - 1)
    unfold loopRun at hdone
    rw [hdone]
    have hempty : indexList lo hi = [] := indexList_empty hcase
    have hzero : seqSum add zero f lo hi = zero := by
      unfold seqSum
      rw [hempty]
      rfl
    rw [hempty, hzero]

/-- Master characterization of `cpu_variant` on a context whose input store 0
has runtime-valid bounds and whose store 0 slots are present: the invocation
completes, logs the bounds, reads the slice in ascending order, and hands the
sequential sum to the assertion-guarded reduce. -/
theorem cpuVariant_eq {F : Type} (add : F → F → F) (zero : F) (fuel : Nat)
    (ctx : TaskContext F) (inp : InputStore F) (out : OutputStore F)
    (hin : ctx.inputs[0]? = some inp) (hout : ctx.reductions[0]? = some out)
    (h0 : 0 ≤ inp.shape.lo) (h1 : 0 ≤ inp.shape.hi)
    (h2 : inp.shape.lo < (halfMod : Int)) (h3 : inp.shape.hi < (halfMod : Int))
    (hfuel : loopFuel inp.shape.lo inp.shape.hi ≤ fuel) :
    cpuVariant add zero fuel ctx =
      some (checkResult out
        (seqSum add zero inp.data inp.shape.lo inp.shape.hi)
        (Effect.log inp.shape.lo inp.shape.hi ::
          (indexList inp.shape.lo inp.shape.hi).map (Effect.readInput 0))) := by
  obtain ⟨j, hfin⟩ := loopRun_valid add zero inp.data inp.shape.lo inp.shape.hi
    fuel h0 h1 h2 h3 hfuel
  unfold cpuVariant
  rw [hin]
  simp only [hfin, hout]
  simp

/-- With the hi bound converted to `size_t` equal to `2^64 - 1` (as happens
for `hi = -1`, the canonical empty `Rect<1>`), the unsigned test `i <= hi`
never fails, so the loop never exits. -/
theorem loopRun_never_done {F : Type} (add : F → F → F) (f : Int → F) :
    ∀ (n : Nat) (s : LoopState F), s.done = false → s.i < wordMod →
      (loopRun add f (wordMod - 1) s n).done = false := by
  intro n
  induction n with
  | zero =>
    intro s hs _
    exact hs
  | succ n ih =>
    intro s hs hi
    obtain ⟨i, a, r, d⟩ := s
    dsimp only at hs hi
    subst hs
    have hle : i ≤ wordMod - 1 := by omega
    unfold loopRun at ih ⊢
    rw [Function.iterate_succ_apply, loopStep_read add f (wordMod - 1) i a r hle]
    exact ih _ rfl (Nat.mod_lt _ (by norm_num [wordMod]))

theorem filter_reduce_reads {F : Type} (l : List Int) :
    (l.map (@Effect.readInput F 0)).filter isReduceEffect = [] := by
  induction l with
  | nil => rfl
  | cons x l ih =>
    simp only [List.map_cons, List.filter_cons]
    rw [show isReduceEffect (@Effect.readInput F 0 x) = false from rfl]
    simpa using ih

/-- The only store-modifying effect a completed invocation performs is the
single reduce of the total into index 0 of reduction store 0. -/
theorem filter_reduce_ok {F : Type} (lo hi : Int) (idxs : List Int) (t : F) :
    ((Effect.log lo hi :: idxs.map (Effect.readInput 0)) ++
      [Effect.reduceAt 0 0 t]).filter isReduceEffect = [Effect.reduceAt 0 0 t] := by
  rw [List.filter_append, List.filter_cons]
  rw [show isReduceEffect (@Effect.log F lo hi) = false from rfl]
  simp [filter_reduce_reads, isReduceEffect]

/-- An aborted invocation's trace holds no reduce effect at all. -/
theorem filter_reduce_aborted {F : Type} (lo hi : Int) (idxs : List Int) :
    ((Effect.log lo hi :: idxs.map (@Effect.readInput F 0)).filter
      isReduceEffect) = [] := by
  rw [List.filter_cons]
  rw [show isReduceEffect (@Effect.log F lo hi) = false from rfl]
  simpa using filter_reduce_reads idxs

theorem applyReduce_reads {F : Type} (add : F → F → F) (idxs : List Int) :
    ∀ x : F, (idxs.map (@Effect.readInput F 0)).foldl (reduceApply add) x = x := by
  induction idxs with
  | nil =>
    intro x
    rfl
  | cons i l ih =>
    intro x
    simp only [List.map_cons, List.foldl_cons]
    rw [show reduceApply add x (@Effect.readInput F 0 i) = x from rfl]
    exact ih x

/-- Applying a completed invocation's trace to the accumulator: the final
value is the initial value plus the contributed total. -/
theorem applyReduce_ok {F : Type} (add : F → F → F) (init t : F) (lo hi : Int)
    (idxs : List Int) :
    applyReduceEffects add init
      ((Effect.log lo hi :: idxs.map (Effect.readInput 0)) ++
        [Effect.reduceAt 0 0 t]) = add init t := by
  unfold applyReduceEffects
  rw [List.foldl_append]
  simp only [List.foldl_cons]
  rw [show reduceApply add init (@Effect.log F lo hi) = init from rfl]
  rw [applyReduce_reads add idxs init]
  show reduceApply add init (Effect.reduceAt 0 0 t) = add init t
  simp [reduceApply]

theorem foldl_add_eq_sum (l : List ℚ) :
    ∀ a : ℚ, l.foldl (fun x y => x + y) a = a + l.sum := by
  induction l with
  | nil =>
    intro a
    simp
  | cons x l ih =>
    intro a
    simp only [List.foldl_cons, List.sum_cons]
    rw [ih (a + x)]
    ring

theorem seqSum_eq_sum (f : Int → ℚ) (lo hi : Int) :
    seqSum (fun a b => a + b) 0 f lo hi = ((indexList lo hi).map f).sum := by
  unfold seqSum
  rw [foldl_add_eq_sum]
  ring

/-- Splitting a sequential sum at a segment boundary (exact arithmetic:
associativity of addition). -/
theorem seqSum_split (f : Int → ℚ) (lo mid hi : Int) (h1 : lo ≤ mid + 1)
    (h2 : mid ≤ hi) :
    seqSum (fun a b => a + b) 0 f lo mid +
      seqSum (fun a b => a + b) 0 f (mid + 1) hi =
      seqSum (fun a b => a + b) 0 f lo hi := by
  rw [seqSum_eq_sum, seqSum_eq_sum, seqSum_eq_sum, ← indexList_append h1 h2,
    List.map_append, List.sum_append]

theorem cpuContribution_eq (f : Int → ℚ) (lo hi : Int) (h0 : 0 ≤ lo)
    (h1 : 0 ≤ hi) (h2 : lo < (halfMod : Int)) (h3 : hi < (halfMod : Int)) :
    cpuContribution f lo hi = some (seqSum (fun a b => a + b) 0 f lo hi) := by
  obtain ⟨j, hfin⟩ := loopRun_valid (fun a b => a + b) 0 f lo hi
    (loopFuel lo hi) h0 h1 h2 h3 le_rfl
  unfold cpuContribution
  rw [hfin]
  simp

/-- Joint induction for C6: over any contiguous partition with positive
segment lengths inside the valid coordinate range, every point task's
contribution is the segment's sequential sum, and those sums add up to the
sequential sum of the whole range. -/
theorem segment_sums_aux (f : Int → ℚ) :
    ∀ (lens : List Nat) (start : Int), 0 ≤ start → (∀ n ∈ lens, 0 < n) →
      start + (lens.sum : Int) ≤ (halfMod : Int) →
      segmentContribs f start lens = (segmentSeqSums f start lens).map some ∧
      (segmentSeqSums f start lens).sum =
        seqSum (fun a b => a + b) 0 f start (start + (lens.sum : Int) - 1) := by
  intro lens
  induction lens with
  | nil =>
    intro start h0 _ _
    refine ⟨rfl, ?_⟩
    have hempty : seqSum (fun a b => a + b) 0 f start
        (start + ((List.sum ([] : List Nat) : Nat) : Int) - 1) = 0 := by
      unfold seqSum
      rw [indexList_empty (by simp)]
      rfl
    rw [hempty]
    rfl
  | cons n rest ih =>
    intro start h0 hpos hbound
    have hn : 0 < n := hpos n (List.mem_cons_self n rest)
    have hrest : ∀ m ∈ rest, 0 < m := fun m hm =>
      hpos m (List.mem_cons_of_mem n hm)
    have hsum : ((List.sum (n :: rest) : Nat) : Int) =
        (n : Int) + ((List.sum rest : Nat) : Int) := by
      push_cast [List.sum_cons]
      ring
    rw [hsum] at hbound
    have hcontrib := cpuContribution_eq f start (start + (n : Int) - 1) h0
      (by omega) (by omega) (by omega)
    have ihr := ih (start + (n : Int)) (by omega) hrest (by omega)
    constructor
    · show cpuContribution f start (start + (n : Int) - 1) ::
        segmentContribs f (start + (n : Int)) rest = _
      rw [hcontrib, ihr.1]
      rfl
    · show seqSum (fun a b => a + b) 0 f start (start + (n : Int) - 1) +
        (segmentSeqSums f (start + (n : Int)) rest).sum = _
      rw [ihr.2]
      have harg : start + ((List.sum (n :: rest) : Nat) : Int) - 1 =
          start + (n : Int) + ((List.sum rest : Nat) : Int) - 1 := by
        rw [hsum]
        ring
      rw [harg]
      have hmid : start + (n : Int) - 1 + 1 = start + (n : Int) := by ring
      have hsplit := seqSum_split f start (start + (n : Int) - 1)
        (start + (n : Int) + ((List.sum rest : Nat) : Int) - 1)
        (by omega) (by omega)
      rw [hmid] at hsplit
      exact hsplit

theorem procStep_invariant (s : ProcState) (e : ProcEvent)
    (h : s.registrations = if s.helloLoaded then 1 else 0) :
    (procStep s e).registrations =
      if (procStep s e).helloLoaded then 1 else 0 := by
  cases e with
  | loadHello =>
    by_cases hl : s.helloLoaded = true
    · simp [procStep, hl, h]
    · simp only [Bool.not_eq_true] at hl
      simp [procStep, hl, register_tasks, h]
  | loadOther lib => simpa [procStep] using h
  | dispatchSum =>
    by_cases hl : s.helloLoaded = true
    · simp [procStep, hl, h]
    · simp only [Bool.not_eq_true] at hl
      simp [procStep, hl, h]

theorem procStep_loaded (s : ProcState) (e : ProcEvent) :
    (procStep s e).helloLoaded =
      (s.helloLoaded || decide (e = ProcEvent.loadHello)) := by
  cases e with
  | loadHello =>
    by_cases hl : s.helloLoaded = true
    · simp [procStep, hl]
    · simp only [Bool.not_eq_true] at hl
      simp [procStep, hl]
  | loadOther lib => simp [procStep]
  | dispatchSum =>
    by_cases hl : s.helloLoaded = true
    · simp [procStep, hl]
    · simp only [Bool.not_eq_true] at hl
      simp [procStep, hl]

theorem runEvents_invariant (events : List ProcEvent) :
    ∀ s : ProcState, s.registrations = (if s.helloLoaded then 1 else 0) →
      (events.foldl procStep s).registrations =
        (if (events.foldl procStep s).helloLoaded then 1 else 0) ∧
      (events.foldl procStep s).helloLoaded =
        (s.helloLoaded || events.any (fun e => decide (e = ProcEvent.loadHello))) := by
  induction events with
  | nil =>
    intro s h
    simpa using h
  | cons e rest ih =>
    intro s h
    simp only [List.foldl_cons, List.any_cons]
    obtain ⟨h1, h2⟩ := ih (procStep s e) (procStep_invariant s e h)
    refine ⟨h1, ?_⟩
    rw [h2, procStep_loaded]
    cases s.helloLoaded <;> cases e <;> simp

theorem runEvents_no_load (events : List ProcEvent) :
    ∀ s : ProcState, s.helloLoaded = false →
      (∀ e ∈ events, e ≠ ProcEvent.loadHello) →
      (events.foldl procStep s).dispatches = s.dispatches ∧
      (events.foldl procStep s).helloLoaded = false := by
  induction events with
  | nil =>
    intro s h _
    exact ⟨rfl, h⟩
  | cons e rest ih =>
    intro s h hne
    simp only [List.foldl_cons]
    have hstep : (procStep s e).dispatches = s.dispatches ∧
        (procStep s e).helloLoaded = false := by
      cases e with
      | loadHello => exact absurd rfl (hne _ (List.mem_cons_self _ _))
      | loadOther lib => exact ⟨rfl, h⟩
      | dispatchSum => simp [procStep, h]
    obtain ⟨hd, hl⟩ := hstep
    obtain ⟨ih1, ih2⟩ := ih (procStep s e) hl
      (fun x hx => hne x (List.mem_cons_of_mem e hx))
    exact ⟨ih1.trans hd, ih2⟩

/-- When the three asserted preconditions hold, the tail of `cpu_variant`
performs the reduce and completes. -/
theorem checkResult_valid {F : Type} (out : OutputStore F) (t : F)
    (effs : List (Effect F)) (h : validOutput out) :
    checkResult out t effs =
      VariantResult.ok t (effs ++ [Effect.reduceAt 0 0 t]) := by
  obtain ⟨hc, hd, hs⟩ := h
  unfold checkResult
  rw [if_pos hc, if_pos hd, if_pos hs]

/-- When one of the asserted preconditions fails, the tail of `cpu_variant`
aborts at the first failing assertion and performs no reduce. -/
theorem checkResult_invalid {F : Type} (out : OutputStore F) (t : F)
    (effs : List (Effect F)) (h : ¬ validOutput out) :
    ∃ k, checkResult out t effs = VariantResult.aborted k effs := by
  unfold checkResult
  by_cases hc : out.code = TypeCode.FLOAT_LT
  · by_cases hd : out.dim = 1
    · by_cases hs : out.shape = (⟨0, 0⟩ : Rect1)
      · exact absurd ⟨hc, hd, hs⟩ h
      · exact ⟨3, by rw [if_pos hc, if_pos hd, if_neg hs]⟩
    · exact ⟨2, by rw [if_pos hc, if_neg hd]⟩
  · exact ⟨1, by rw [if_neg hc]⟩

/-- Whatever the assertion outcome, the trace holds nothing beyond the
effects performed before the assertions and possibly the single reduce. -/
theorem checkResult_effects_sub {F : Type} (out : OutputStore F) (t : F)
    (effs : List (Effect F)) :
    ∀ e ∈ (checkResult out t effs).effects,
      e ∈ effs ++ [Effect.reduceAt 0 0 t] := by
  intro e he
  by_cases hv : validOutput out
  · rw [checkResult_valid out t effs hv] at he
    exact he
  · obtain ⟨k, hk⟩ := checkResult_invalid out t effs hv
    rw [hk] at he
    exact List.mem_append_left _ he

/-- C1: for every non-empty contiguous segment with runtime-supplied valid
inclusive bounds `lo ≤ hi`, the value `SumTask::cpu_variant` accumulates and
contributes is the sequential sum of the elements at indices
`lo, lo+1, ..., hi`, added in ascending index order starting from the
identity — for an arbitrary addition operation, hence in particular for
standard floating-point addition. -/
theorem sumTask_contribution_eq_seqSum {F : Type} (add : F → F → F) (zero : F)
    (fuel : Nat) (ctx : TaskContext F) (inp : InputStore F)
    (out : OutputStore F)
    (hin : ctx.inputs[0]? = some inp) (hout : ctx.reductions[0]? = some out)
    (hvalid : validOutput out)
    (h0 : 0 ≤ inp.shape.lo) (hle : inp.shape.lo ≤ inp.shape.hi)
    (h3 : inp.shape.hi < (halfMod : Int))
    (hfuel : loopFuel inp.shape.lo inp.shape.hi ≤ fuel) :
    cpuVariant add zero fuel ctx =
      some (VariantResult.ok
        (seqSum add zero inp.data inp.shape.lo inp.shape.hi)
        ((Effect.log inp.shape.lo inp.shape.hi ::
          (indexList inp.shape.lo inp.shape.hi).map (Effect.readInput 0)) ++
          [Effect.reduceAt 0 0
            (seqSum add zero inp.data inp.shape.lo inp.shape.hi)])) := by
  rw [cpuVariant_eq add zero fuel ctx inp out hin hout h0 (le_trans h0 hle)
    (lt_of_le_of_lt hle h3) h3 hfuel]
  rw [checkResult_valid out _ _ hvalid]

/-- C1 witness: the spec's example task A, slice `[0, 1]` of
`[1.0, 2.0, 3.0, 4.0]`. -/
theorem sumTask_contribution_eq_seqSum_wit :
    cpuVariant (fun a b => a + b) (0 : ℚ) 3 ctxA =
      some (VariantResult.ok (seqSum (fun a b => a + b) 0 helloData 0 1)
        ((Effect.log 0 1 :: (indexList 0 1).map (Effect.readInput 0)) ++
          [Effect.reduceAt 0 0 (seqSum (fun a b => a + b) 0 helloData 0 1)])) :=
  sumTask_contribution_eq_seqSum (fun a b => a + b) 0 3 ctxA
    ⟨⟨0, 1⟩, helloData⟩ outOk rfl rfl (by decide) (by decide) (by decide)
    (by decide) (by decide)

/-- C2 (code defect): at the canonical empty rect (`lo = 0`, `hi = -1`) the
graceful-degradation claim fails.  `hi = -1` converts to `size_t` value
`2^64 - 1`, so the unsigned loop test `i <= hi` holds at `i = 0`: the very
first iteration reads index 0 of the (empty) input store, the test never
fails thereafter, the loop never exits, and the invocation never reaches the
reduce — nothing, in particular not `0.0`, is contributed. -/
theorem sumTask_empty_rect_bug :
    toSizeT (-1) = wordMod - 1 ∧
    (loopRun (fun a b : ℚ => a + b) helloData (toSizeT (-1))
      ⟨toSizeT 0, 0, [], false⟩ 1).reads = [0] ∧
    (∀ n : Nat, (loopRun (fun a b : ℚ => a + b) helloData (toSizeT (-1))
      ⟨toSizeT 0, 0, [], false⟩ n).done = false) ∧
    (∀ fuel : Nat,
      cpuVariant (fun a b => a + b) (0 : ℚ) fuel ctxEmpty = none) := by
  have hsz : toSizeT (-1) = wordMod - 1 := by decide
  have hnd : ∀ n : Nat, (loopRun (fun a b : ℚ => a + b) helloData
      (toSizeT (-1)) ⟨toSizeT 0, 0, [], false⟩ n).done = false := by
    intro n
    rw [hsz]
    exact loopRun_never_done _ _ n _ rfl (by decide)
  refine ⟨hsz, by decide, hnd, ?_⟩
  intro fuel
  have h1 : ctxEmpty.inputs[0]? =
      some (⟨⟨0, -1⟩, helloData⟩ : InputStore ℚ) := rfl
  unfold cpuVariant
  rw [h1]
  dsimp only
  rw [hnd fuel]
  simp

/-- C3: the spec's example — the array `[1.0, 2.0, 3.0, 4.0]` partitioned as
two point tasks over `[0, 1]` and `[2, 3]`: task A contributes exactly 3.0,
task B exactly 7.0, and the two contributions combine to exactly 10.0 (all
these additions are exact in binary64, mirrored here by exact rationals). -/
theorem sumTask_concrete_partition :
    okTotal (cpuVariant (fun a b => a + b) (0 : ℚ) 3 ctxA) = some 3 ∧
    okTotal (cpuVariant (fun a b => a + b) (0 : ℚ) 3 ctxB) = some 7 ∧
    (okTotal (cpuVariant (fun a b => a + b) (0 : ℚ) 3 ctxA)).getD 0 +
      (okTotal (cpuVariant (fun a b => a + b) (0 : ℚ) 3 ctxB)).getD 0 =
      10 := by
  have hA := cpuVariant_eq (fun a b => a + b) (0 : ℚ) 3 ctxA
    ⟨⟨0, 1⟩, helloData⟩ outOk rfl rfl (by decide) (by decide) (by decide)
    (by decide) (by decide)
  have hB := cpuVariant_eq (fun a b => a + b) (0 : ℚ) 3 ctxB
    ⟨⟨2, 3⟩, helloData⟩ outOk rfl rfl (by decide) (by decide) (by decide)
    (by decide) (by decide)
  rw [checkResult_valid _ _ _ (by decide)] at hA
  rw [checkResult_valid _ _ _ (by decide)] at hB
  have hsA : seqSum (fun a b => a + b) (0 : ℚ) helloData 0 1 = 3 := by
    unfold seqSum
    rw [show indexList 0 1 = [0, 1] from by decide]
    norm_num [helloData]
  have hsB : seqSum (fun a b => a + b) (0 : ℚ) helloData 2 3 = 7 := by
    unfold seqSum
    rw [show indexList 2 3 = [2, 3] from by decide]
    norm_num [helloData]
  rw [hA, hB]
  dsimp only [okTotal]
  rw [hsA, hsB]
  norm_num

/-- C4: `cpu_variant` validates, via the three assertions before reducing,
exactly the element type (`FLOAT_LT`), rank (1) and logical shape (`[0,0]`)
of the reduction-output store: the invocation aborts if and only if one of
the three fails, an aborted invocation performs no reduce, and no other
condition aborts. -/
theorem sumTask_assert_validation {F : Type} (add : F → F → F) (zero : F)
    (fuel : Nat) (ctx : TaskContext F) (inp : InputStore F)
    (out : OutputStore F)
    (hin : ctx.inputs[0]? = some inp) (hout : ctx.reductions[0]? = some out)
    (h0 : 0 ≤ inp.shape.lo) (h1 : 0 ≤ inp.shape.hi)
    (h2 : inp.shape.lo < (halfMod : Int)) (h3 : inp.shape.hi < (halfMod : Int))
    (hfuel : loopFuel inp.shape.lo inp.shape.hi ≤ fuel) :
    ∃ r : VariantResult F, cpuVariant add zero fuel ctx = some r ∧
      (r.isAborted = true ↔ ¬ validOutput out) ∧
      (r.isAborted = true → r.effects.filter isReduceEffect = []) := by
  rw [cpuVariant_eq add zero fuel ctx inp out hin hout h0 h1 h2 h3 hfuel]
  by_cases hv : validOutput out
  · rw [checkResult_valid _ _ _ hv]
    refine ⟨_, rfl, ?_, ?_⟩
    · simp [VariantResult.isAborted, hv]
    · intro hab
      simp [VariantResult.isAborted] at hab
  · obtain ⟨k, hk⟩ := checkResult_invalid out
      (seqSum add zero inp.data inp.shape.lo inp.shape.hi)
      (Effect.log inp.shape.lo inp.shape.hi ::
        (indexList inp.shape.lo inp.shape.hi).map (Effect.readInput 0)) hv
    rw [hk]
    refine ⟨_, rfl, ?_, ?_⟩
    · simp [VariantResult.isAborted, hv]
    · intro _
      exact filter_reduce_aborted _ _ _

/-- C4 witness: a reduction store of element type `DOUBLE_LT` aborts with no
reduce performed. -/
theorem sumTask_assert_validation_wit :
    ∃ r : VariantResult ℚ,
      cpuVariant (fun a b => a + b) (0 : ℚ) 3 ctxBad = some r ∧
      (r.isAborted = true ↔ ¬ validOutput outBad) ∧
      (r.isAborted = true → r.effects.filter isReduceEffect = []) :=
  sumTask_assert_validation (fun a b => a + b) 0 3 ctxBad
    ⟨⟨0, 1⟩, helloData⟩ outBad rfl rfl (by decide) (by decide) (by decide)
    (by decide) (by decide)

/-- C5: on an invocation whose reduction store passes the assertions, the
only store-modifying effect is a single additive reduce writing the computed
total into index 0 of reduction store 0; reads and the log line modify
nothing. -/
theorem sumTask_single_reduce_write {F : Type} (add : F → F → F) (zero : F)
    (fuel : Nat) (ctx : TaskContext F) (inp : InputStore F)
    (out : OutputStore F)
    (hin : ctx.inputs[0]? = some inp) (hout : ctx.reductions[0]? = some out)
    (hvalid : validOutput out)
    (h0 : 0 ≤ inp.shape.lo) (h1 : 0 ≤ inp.shape.hi)
    (h2 : inp.shape.lo < (halfMod : Int)) (h3 : inp.shape.hi < (halfMod : Int))
    (hfuel : loopFuel inp.shape.lo inp.shape.hi ≤ fuel) :
    ∃ r : VariantResult F, cpuVariant add zero fuel ctx = some r ∧
      r.effects.filter isReduceEffect =
        [Effect.reduceAt 0 0
          (seqSum add zero inp.data inp.shape.lo inp.shape.hi)] := by
  rw [cpuVariant_eq add zero fuel ctx inp out hin hout h0 h1 h2 h3 hfuel,
    checkResult_valid _ _ _ hvalid]
  exact ⟨_, rfl, filter_reduce_ok _ _ _ _⟩

/-- C5 witness: the spec's example task A writes exactly once, the reduce of
its total into index 0 of reduction store 0. -/
theorem sumTask_single_reduce_write_wit :
    ∃ r : VariantResult ℚ,
      cpuVariant (fun a b => a + b) (0 : ℚ) 3 ctxA = some r ∧
      r.effects.filter isReduceEffect =
        [Effect.reduceAt 0 0 (seqSum (fun a b => a + b) 0 helloData 0 1)] :=
  sumTask_single_reduce_write (fun a b => a + b) 0 3 ctxA
    ⟨⟨0, 1⟩, helloData⟩ outOk rfl rfl (by decide) (by decide) (by decide)
    (by decide) (by decide) (by decide)

/-- C6: for every array and every contiguous partition of its index range
`[0, lens.sum)` into non-empty segments (within the valid coordinate range),
each point task's contribution is its segment's sequential sum and the sum
of all contributions is the sequential sum of the whole array, independent
of the partition (exact arithmetic, as the spec's associativity and
commutativity argument assumes). -/
theorem sumTask_partition_invariance (f : Int → ℚ) (lens : List Nat)
    (hpos : ∀ n ∈ lens, 0 < n)
    (hbound : ((List.sum lens : Nat) : Int) ≤ (halfMod : Int)) :
    segmentContribs f 0 lens = (segmentSeqSums f 0 lens).map some ∧
    (segmentSeqSums f 0 lens).sum =
      seqSum (fun a b => a + b) 0 f 0 (((List.sum lens : Nat) : Int) - 1) := by
  have h := segment_sums_aux f lens 0 le_rfl hpos (by omega)
  simpa using h

/-- C6 witness: the example array partitioned as `[2, 2]`. -/
theorem sumTask_partition_invariance_wit :
    segmentContribs helloData 0 [2, 2] =
      (segmentSeqSums helloData 0 [2, 2]).map some ∧
    (segmentSeqSums helloData 0 [2, 2]).sum =
      seqSum (fun a b => a + b) 0 helloData 0
        (((List.sum [2, 2] : Nat) : Int) - 1) :=
  sumTask_partition_invariance helloData [2, 2] (by decide) (by decide)

/-- C7: `cpu_variant` is a deterministic, total function of its input slice:
two invocations whose input store 0 has the same bounds and the same
contents on the slice — however the contents differ outside it — and the
same reduction store produce identical results. -/
theorem sumTask_deterministic {F : Type} (add : F → F → F) (zero : F)
    (fuel : Nat) (ctx₁ ctx₂ : TaskContext F) (inp₁ inp₂ : InputStore F)
    (out : OutputStore F)
    (hin1 : ctx₁.inputs[0]? = some inp₁) (hin2 : ctx₂.inputs[0]? = some inp₂)
    (hout1 : ctx₁.reductions[0]? = some out)
    (hout2 : ctx₂.reductions[0]? = some out)
    (hshape : inp₂.shape = inp₁.shape)
    (hdata : ∀ i : Int, inp₁.shape.lo ≤ i → i ≤ inp₁.shape.hi →
      inp₂.data i = inp₁.data i)
    (h0 : 0 ≤ inp₁.shape.lo) (h1 : 0 ≤ inp₁.shape.hi)
    (h2 : inp₁.shape.lo < (halfMod : Int))
    (h3 : inp₁.shape.hi < (halfMod : Int))
    (hfuel : loopFuel inp₁.shape.lo inp₁.shape.hi ≤ fuel) :
    cpuVariant add zero fuel ctx₁ = cpuVariant add zero fuel ctx₂ := by
  rw [cpuVariant_eq add zero fuel ctx₁ inp₁ out hin1 hout1 h0 h1 h2 h3 hfuel]
  rw [cpuVariant_eq add zero fuel ctx₂ inp₂ out hin2 hout2
    (by rw [hshape]; exact h0) (by rw [hshape]; exact h1)
    (by rw [hshape]; exact h2) (by rw [hshape]; exact h3)
    (by rw [hshape]; exact hfuel)]
  rw [hshape]
  have hseq : seqSum add zero inp₂.data inp₁.shape.lo inp₁.shape.hi =
      seqSum add zero inp₁.data inp₁.shape.lo inp₁.shape.hi := by
    unfold seqSum
    congr 1
    apply List.map_congr_left
    intro i hi
    obtain ⟨hl, hr⟩ := mem_indexList hi
    exact hdata i hl hr
  rw [hseq]

/-- C7 witness: task A against a context whose input differs only at index
99, outside the slice `[0, 1]`. -/
theorem sumTask_deterministic_wit :
    cpuVariant (fun a b => a + b) (0 : ℚ) 3 ctxA =
      cpuVariant (fun a b => a + b) (0 : ℚ) 3 ctxA2 :=
  sumTask_deterministic (fun a b => a + b) 0 3 ctxA ctxA2
    ⟨⟨0, 1⟩, helloData⟩ ⟨⟨0, 1⟩, helloDataAlt⟩ outOk rfl rfl rfl rfl rfl
    (fun i hl hr => by
      have hl2 : (0 : Int) ≤ i := hl
      have hr2 : i ≤ (1 : Int) := hr
      show helloDataAlt i = helloData i
      unfold helloDataAlt
      rw [if_neg (by omega)])
    (by decide) (by decide) (by decide) (by decide) (by decide)

/-- C8: over every sequence of library-load and dispatch events,
`register_variants` has run exactly once as soon as the hello library's load
was requested at least once — however many times it was requested — and
never more than once; and any dispatch of a `SumTask` implies registration
already happened. -/
theorem register_tasks_once (events : List ProcEvent) :
    (runEvents events).registrations =
      (if ProcEvent.loadHello ∈ events then 1 else 0) ∧
    ((runEvents events).dispatches = 0 ∨
      (runEvents events).registrations = 1) := by
  obtain ⟨h1, h2⟩ := runEvents_invariant events procInit rfl
  unfold runEvents
  by_cases hmem : ProcEvent.loadHello ∈ events
  · have hanyt : (events.any fun e => decide (e = ProcEvent.loadHello)) =
        true := List.any_eq_true.mpr ⟨ProcEvent.loadHello, hmem, by simp⟩
    rw [hanyt] at h2
    simp only [Bool.or_true] at h2
    rw [h2] at h1
    rw [if_pos hmem]
    exact ⟨by simpa using h1, Or.inr (by simpa using h1)⟩
  · have hne : ∀ e ∈ events, e ≠ ProcEvent.loadHello := by
      intro e he heq
      exact hmem (heq ▸ he)
    obtain ⟨hd, hl⟩ := runEvents_no_load events procInit rfl hne
    rw [hl] at h1
    rw [if_neg hmem]
    exact ⟨by simpa using h1, Or.inl (by simpa [procInit] using hd)⟩

/-- C9: the reduction handle is accumulate-only.  The invocation's result is
independent of the accumulator's initial contents (the task never reads
them), and applying the trace to an accumulator holding `init` leaves
`init + total`, the contribution `total` being computed solely from the
input slice. -/
theorem sumTask_accumulate_only {F : Type} (add : F → F → F) (zero : F)
    (fuel : Nat) (ctx₁ ctx₂ : TaskContext F) (inp : InputStore F)
    (out : OutputStore F) (x : F)
    (hin1 : ctx₁.inputs[0]? = some inp) (hin2 : ctx₂.inputs[0]? = some inp)
    (hout1 : ctx₁.reductions[0]? = some out)
    (hout2 : ctx₂.reductions[0]? = some { out with accInit := x })
    (hvalid : validOutput out)
    (h0 : 0 ≤ inp.shape.lo) (h1 : 0 ≤ inp.shape.hi)
    (h2 : inp.shape.lo < (halfMod : Int)) (h3 : inp.shape.hi < (halfMod : Int))
    (hfuel : loopFuel inp.shape.lo inp.shape.hi ≤ fuel) :
    cpuVariant add zero fuel ctx₁ = cpuVariant add zero fuel ctx₂ ∧
    ∃ r : VariantResult F, cpuVariant add zero fuel ctx₁ = some r ∧
      applyReduceEffects add out.accInit r.effects =
        add out.accInit
          (seqSum add zero inp.data inp.shape.lo inp.shape.hi) := by
  have e1 := cpuVariant_eq add zero fuel ctx₁ inp out hin1 hout1
    h0 h1 h2 h3 hfuel
  have e2 := cpuVariant_eq add zero fuel ctx₂ inp { out with accInit := x }
    hin2 hout2 h0 h1 h2 h3 hfuel
  constructor
  · rw [e1, e2]
    rfl
  · rw [e1, checkResult_valid _ _ _ hvalid]
    exact ⟨_, rfl, applyReduce_ok add out.accInit _ _ _ _⟩

/-- C9 witness: task A against the same context with initial accumulator
value 5 instead of 0. -/
theorem sumTask_accumulate_only_wit :
    cpuVariant (fun a b => a + b) (0 : ℚ) 3 ctxA =
      cpuVariant (fun a b => a + b) (0 : ℚ) 3 ctxA3 ∧
    ∃ r : VariantResult ℚ,
      cpuVariant (fun a b => a + b) (0 : ℚ) 3 ctxA = some r ∧
      applyReduceEffects (fun a b => a + b) outOk.accInit r.effects =
        outOk.accInit + seqSum (fun a b => a + b) 0 helloData 0 1 :=
  sumTask_accumulate_only (fun a b => a + b) 0 3 ctxA ctxA3
    ⟨⟨0, 1⟩, helloData⟩ outOk 5 rfl rfl rfl rfl (by decide) (by decide)
    (by decide) (by decide) (by decide) (by decide)

/-- C10: with `lo ≤ hi`, every effect of the invocation stays in frame —
every accessor read uses input store 0 and an index `i` with
`lo ≤ i ≤ hi`, and the reduce uses reduction store 0 at index 0 — and the
result is unchanged by whatever other stores the context carries beyond
index 0. -/
theorem sumTask_reads_within_slice {F : Type} (add : F → F → F) (zero : F)
    (fuel : Nat) (ctx : TaskContext F) (inp : InputStore F)
    (out : OutputStore F)
    (hin : ctx.inputs[0]? = some inp) (hout : ctx.reductions[0]? = some out)
    (h0 : 0 ≤ inp.shape.lo) (hle : inp.shape.lo ≤ inp.shape.hi)
    (h3 : inp.shape.hi < (halfMod : Int))
    (hfuel : loopFuel inp.shape.lo inp.shape.hi ≤ fuel) :
    (∃ r : VariantResult F, cpuVariant add zero fuel ctx = some r ∧
      ∀ e ∈ r.effects, effectInFrame inp.shape.lo inp.shape.hi e) ∧
    (∀ ctx₂ : TaskContext F, ctx₂.inputs[0]? = some inp →
      ctx₂.reductions[0]? = some out →
      cpuVariant add zero fuel ctx₂ = cpuVariant add zero fuel ctx) := by
  have h1 : (0 : Int) ≤ inp.shape.hi := le_trans h0 hle
  have h2 : inp.shape.lo < (halfMod : Int) := lt_of_le_of_lt hle h3
  have e1 := cpuVariant_eq add zero fuel ctx inp out hin hout h0 h1 h2 h3 hfuel
  constructor
  · rw [e1]
    refine ⟨_, rfl, ?_⟩
    intro e he
    have hsub := checkResult_effects_sub out _ _ e he
    rcases List.mem_append.mp hsub with hmem | hmem
    · rcases List.mem_cons.mp hmem with hlog | hread
      · subst hlog
        trivial
      · rw [List.mem_map] at hread
        obtain ⟨i, hi, rfl⟩ := hread
        obtain ⟨hl, hr⟩ := mem_indexList hi
        exact ⟨rfl, hl, hr⟩
    · rw [List.mem_singleton] at hmem
      subst hmem
      exact ⟨rfl, rfl⟩
  · intro ctx₂ hin2 hout2
    rw [e1,
      cpuVariant_eq add zero fuel ctx₂ inp out hin2 hout2 h0 h1 h2 h3 hfuel]

/-- C10 witness: task A's slice in a context that carries an extra input
store and an extra reduction store beyond index 0. -/
theorem sumTask_reads_within_slice_wit :
    (∃ r : VariantResult ℚ,
      cpuVariant (fun a b => a + b) (0 : ℚ) 3 ctxAextra = some r ∧
      ∀ e ∈ r.effects, effectInFrame 0 1 e) ∧
    (∀ ctx₂ : TaskContext ℚ,
      ctx₂.inputs[0]? = some ⟨⟨0, 1⟩, helloData⟩ →
      ctx₂.reductions[0]? = some outOk →
      cpuVariant (fun a b => a + b) (0 : ℚ) 3 ctx₂ =
        cpuVariant (fun a b => a + b) (0 : ℚ) 3 ctxAextra) :=
  sumTask_reads_within_slice (fun a b => a + b) 0 3 ctxAextra
    ⟨⟨0, 1⟩, helloData⟩ outOk rfl rfl (by decide) (by decide) (by decide)
    (by decide)

end Hello
